import Mathlib

/-!
Verification of the history-compaction engine and plan state of
`pydantic_ai_cognitive` (`src/pydantic_ai_cognitive/planning.py` and
`src/pydantic_ai_cognitive/utils.py`), shallowly embedded in Lean.
-/

set_option maxHeartbeats 1000000

namespace Planning

/-- A message part: the tagged union of part kinds appearing in a model
message (`UserPromptPart`, `TextPart`, `ToolCallPart`, `ToolReturnPart`,
and a pass-through variant covering every other part kind).  A missing or
absent `tool_call_id` is modelled as the empty string, matching Python
truthiness of `part.tool_call_id`. -/
inductive Part where
  | userPrompt (content : String)
  | text (content : String)
  | toolCall (tool_name : String) (arguments : String) (tool_call_id : String)
  | toolReturn (tool_name : String) (content : String) (tool_call_id : String)
  | unknown (payload : String)
  deriving DecidableEq, Repr

/-- A model message: request/response tag, timestamp and the `parts`
attribute.  `partsAttr = none` models a message object that has no `parts`
attribute at all (then `getattr(message, "parts", [])` yields `[]`). -/
structure Message where
  isRequest : Bool
  timestamp : Nat
  partsAttr : Option (List Part)
  deriving DecidableEq, Repr

/-- The part list the enumerator sees: `getattr(message, "parts", [])`. -/
def messageParts (message : Message) : List Part :=
  message.partsAttr.getD []

/-- `EnumerateMessageWithParts.__iter__` from `utils.py`: yields
`(message, parts)` pairs over the given message sequence. -/
def EnumerateMessageWithParts (history : List Message) : List (Message × List Part) :=
  history.map (fun message => (message, messageParts message))

/-- The watched tool names of `plan_history_processor`:
`{plan_create.__name__, plan_mark_step_complete.__name__, plan_show_progress.__name__}`. -/
def planning_tools : List String :=
  ["plan_create", "plan_mark_step_complete", "plan_show_progress"]

/-- One step of the backward scan of `plan_history_processor` (lines 96-100
of `planning.py`), acting on the state `(ids_to_remove, found_tools)`. -/
def scanStep (st : List String × List String) (part : Part) : List String × List String :=
  match part with
  | .toolCall tool_name _ tool_call_id =>
    if planning_tools.contains tool_name then
      if st.2.contains tool_name && tool_call_id != "" then
        (tool_call_id :: st.1, st.2)
      else
        (st.1, tool_name :: st.2)
    else
      st
  | _ => st

/-- The backward scan of `plan_history_processor` (lines 90-100): traverse
messages in reverse, parts of each message in reverse, and collect the
`tool_call_id`s to remove. -/
def plan_scan (history : List Message) : List String :=
  ((EnumerateMessageWithParts history.reverse).foldl
    (fun st mp => mp.2.reverse.foldl scanStep st) ([], [])).1

/-- The removal test of the rebuild loop (line 109):
`isinstance(part, (ToolCallPart, ToolReturnPart)) and part.tool_call_id in ids_to_remove`. -/
def partStale (ids_to_remove : List String) (part : Part) : Bool :=
  match part with
  | .toolCall _ _ tool_call_id => ids_to_remove.contains tool_call_id
  | .toolReturn _ _ tool_call_id => ids_to_remove.contains tool_call_id
  | _ => false

/-- The per-message body of the rebuild loop (lines 105-121): filter the
parts, then drop the message, reuse it, or rebuild it with `replace`. -/
def rebuildMessagePair (ids_to_remove : List String) (mp : Message × List Part) :
    Option Message :=
  let new_parts := mp.2.filter (fun part => !partStale ids_to_remove part)
  if new_parts.isEmpty then
    none
  else if new_parts.length = mp.2.length then
    some mp.1
  else
    some { mp.1 with partsAttr := some new_parts }

/-- The forward rebuild loop of `plan_history_processor` (lines 102-123). -/
def rebuildHistory (ids_to_remove : List String) (history : List Message) : List Message :=
  (EnumerateMessageWithParts history).filterMap (rebuildMessagePair ids_to_remove)

/-- `plan_history_processor` from `planning.py`: backward scan computing
`ids_to_remove`, then forward rebuild of the history. -/
def plan_history_processor (history : List Message) : List Message :=
  rebuildHistory (plan_scan history) history

/-- All parts of a history in chronological order (message order, then part
order inside each message). -/
def allParts (history : List Message) : List Part :=
  history.flatMap messageParts

/-- The `tool_call_id` carried by a part (empty for part kinds without one). -/
def callId (part : Part) : String :=
  match part with
  | .toolCall _ _ tool_call_id => tool_call_id
  | .toolReturn _ _ tool_call_id => tool_call_id
  | _ => ""

/-- Whether a part is a `ToolCall` with the given tool name. -/
def isToolCallNamed (t : String) (part : Part) : Bool :=
  match part with
  | .toolCall tool_name _ _ => tool_name == t
  | _ => false

/-- Whether a part is a `ToolCall` or a `ToolReturn`. -/
def isToolCallOrReturn (part : Part) : Bool :=
  match part with
  | .toolCall _ _ _ => true
  | .toolReturn _ _ _ => true
  | _ => false

/-- Whether a part is a `ToolReturn`. -/
def isToolReturnPart (part : Part) : Bool :=
  match part with
  | .toolReturn _ _ _ => true
  | _ => false

/-- The chronologically last `ToolCall` of a given name in a history. -/
def lastCallOfName (history : List Message) (t : String) : Option Part :=
  (allParts history).reverse.find? (isToolCallNamed t)

/-- `PlanStep` from `planning.py`. -/
structure PlanStep where
  id : Int
  description : String
  completed : Bool := false
  deriving DecidableEq, Repr

/-- `PlanningContext` from `planning.py`: the mutable plan state. -/
structure PlanningContext where
  steps : List PlanStep := []
  deriving DecidableEq, Repr

/-- `PlanningContext.__str__` (lines 26-34): build the line list by the
source's loop and join with newlines. -/
def PlanningContext.render (p_ctx : PlanningContext) : String :=
  if p_ctx.steps.isEmpty then
    "No plan created yet."
  else
    let lines := p_ctx.steps.foldl
      (fun acc step =>
        acc ++ [(if step.completed then "[x]" else "[ ]") ++ " " ++
          toString step.id ++ ". " ++ step.description])
      ["Current Plan:"]
    String.intercalate "\n" lines

/-- `plan_create` (lines 51-55) at the `PlanningContext` level: replace the
step list with fresh steps numbered from 1, return `(new state, rendered)`. -/
def plan_create (p_ctx : PlanningContext) (steps : List String) :
    PlanningContext × String :=
  let p_ctx' : PlanningContext :=
    { p_ctx with
        steps := steps.enum.map (fun is =>
          { id := (is.1 : Int) + 1, description := is.2 }) }
  (p_ctx', p_ctx'.render)

/-- The mutation loop of `plan_mark_step_complete` (lines 61-66): set
`completed := true` on the first step with the given id; report whether one
was found. -/
def markFirstStep (steps : List PlanStep) (step_id : Int) : List PlanStep × Bool :=
  match steps with
  | [] => ([], false)
  | step :: rest =>
    if step.id = step_id then
      ({ step with completed := true } :: rest, true)
    else
      let r := markFirstStep rest step_id
      (step :: r.1, r.2)

/-- `plan_mark_step_complete` (lines 58-71) at the `PlanningContext` level:
returns `(post state, returned string)`. -/
def plan_mark_step_complete (p_ctx : PlanningContext) (step_id : Int) :
    PlanningContext × String :=
  let r := markFirstStep p_ctx.steps step_id
  if r.2 then
    let p_ctx' : PlanningContext := { p_ctx with steps := r.1 }
    (p_ctx', p_ctx'.render)
  else
    (p_ctx, "Step " ++ toString step_id ++ " not found.")

/-- `plan_show_progress` (lines 74-77) at the `PlanningContext` level:
`return str(p_ctx)` with no mutation, so the post state is the input state. -/
def plan_show_progress (p_ctx : PlanningContext) : PlanningContext × String :=
  (p_ctx, p_ctx.render)

/-- The value held by the dynamically injected `_planning_context`
attribute: either an actual `PlanningContext` or a value of any other type. -/
inductive AttrValue where
  | planning (p_ctx : PlanningContext)
  | other (tag : String)
  deriving DecidableEq, Repr

/-- The target object `_get_context` resolves (`ctx.deps` or `ctx` itself),
with its optional `_planning_context` attribute. -/
structure Target where
  planning_context_attr : Option AttrValue
  deriving DecidableEq, Repr

/-- `_get_context` (lines 37-48): lazily attach a fresh `PlanningContext`
when the attribute is missing; raise `TypeError` when the attribute holds a
value of the wrong type.  Returns the (possibly updated) target and the
planning context. -/
def _get_context (target : Target) : Except String (Target × PlanningContext) :=
  let target' :=
    if target.planning_context_attr.isNone then
      { target with planning_context_attr := some (.planning {}) }
    else
      target
  match target'.planning_context_attr with
  | some (.planning p_ctx) => .ok (target', p_ctx)
  | _ => .error "Planning context is not an instance of PlanningContext"

/-- The `plan_create` tool at the target level: `_get_context` then the
body of `plan_create`, writing the mutated context back to the attribute. -/
def plan_create_tool (target : Target) (steps : List String) :
    Except String (Target × String) :=
  match _get_context target with
  | .error e => .error e
  | .ok tp =>
    let r := plan_create tp.2 steps
    .ok ({ tp.1 with planning_context_attr := some (.planning r.1) }, r.2)

/-- The `plan_mark_step_complete` tool at the target level. -/
def plan_mark_step_complete_tool (target : Target) (step_id : Int) :
    Except String (Target × String) :=
  match _get_context target with
  | .error e => .error e
  | .ok tp =>
    let r := plan_mark_step_complete tp.2 step_id
    .ok ({ tp.1 with planning_context_attr := some (.planning r.1) }, r.2)

/-- The `plan_show_progress` tool at the target level. -/
def plan_show_progress_tool (target : Target) :
    Except String (Target × String) :=
  match _get_context target with
  | .error e => .error e
  | .ok tp =>
    let r := plan_show_progress tp.2
    .ok ({ tp.1 with planning_context_attr := some (.planning r.1) }, r.2)

/-- The scan state reached from the chronological part list, as a single
right fold (the backward traversal processes the last part first). -/
def scanAll (parts : List Part) : List String × List String :=
  parts.foldr (fun part st => scanStep st part) ([], [])

/-- The stale-id component of the scan over a chronological part list. -/
def staleOf (parts : List Part) : List String :=
  (scanAll parts).1

/-- The found-tools component of the scan over a chronological part list. -/
def foundOf (parts : List Part) : List String :=
  (scanAll parts).2

/-- A call id is superseded in a chronological part list: some watched
`ToolCall` carrying it (non-empty) is followed, later in the list, by a
`ToolCall` of the same tool name. -/
def Superseded (l : List Part) (x : String) : Prop :=
  x ≠ "" ∧ ∃ t a l₁ l₂, l = l₁ ++ Part.toolCall t a x :: l₂ ∧
    t ∈ planning_tools ∧ ∃ q ∈ l₂, isToolCallNamed t q = true

/-- The per-message part filtering of the rebuilder as a total map: keep
the non-stale parts in order and every other field unchanged. -/
def msgFilter (ids : List String) (m : Message) : Message :=
  ⟨m.isRequest, m.timestamp,
    some ((messageParts m).filter (fun p => !partStale ids p))⟩

/-- The three-way rebuild policy exactly as the specification words it:
empty filtered sequence → drop the message; identical part sequence →
reuse the original message unchanged; otherwise → a new message with the
same tag and timestamp holding only the filtered parts. -/
def rebuildPolicy (ids : List String) (m : Message) : Option Message :=
  let kept := (messageParts m).filter (fun p => !partStale ids p)
  if kept = [] then none
  else if kept = messageParts m then some m
  else some ⟨m.isRequest, m.timestamp, some kept⟩

/-- The non-empty call id carried by a `ToolCall` part, if any. -/
def toolCallIdOf (p : Part) : Option String :=
  match p with
  | .toolCall _ _ i => if i = "" then none else some i
  | _ => none

/-- The render contract exactly as the specification words it: the literal
no-plan string when the step list is empty; otherwise a `Current Plan:`
header followed by one `[x]`/`[ ]` line per step in list order, joined by
newlines with no trailing newline. -/
def renderSpec (p_ctx : PlanningContext) : String :=
  if p_ctx.steps = [] then "No plan created yet."
  else
    String.intercalate "\n" ("Current Plan:" ::
      p_ctx.steps.map (fun step =>
        (if step.completed then "[x]" else "[ ]") ++ " " ++
          toString step.id ++ ". " ++ step.description))

/-! ### Characterization of the backward scan -/

theorem scanAll_cons (p : Part) (l : List Part) :
    scanAll (p :: l) = scanStep (scanAll l) p := rfl

theorem foldr_flatMap {α β γ : Type} (l : List α) (g : α → List β)
    (f : β → γ → γ) (init : γ) :
    (l.flatMap g).foldr f init = l.foldr (fun a acc => (g a).foldr f acc) init := by
  induction l with
  | nil => rfl
  | cons a l ih => simp [List.flatMap_cons, List.foldr_append, ih]

/-- The nested reversed folds of `plan_scan` compute exactly the single
fold `scanAll` over the flattened chronological part list. -/
theorem plan_scan_eq (history : List Message) :
    plan_scan history = staleOf (allParts history) := by
  unfold plan_scan staleOf scanAll allParts EnumerateMessageWithParts
  rw [List.foldl_map, List.foldl_reverse, foldr_flatMap]
  simp only [List.foldl_reverse]

theorem isToolCallNamed_iff {t : String} {p : Part} :
    isToolCallNamed t p = true ↔ ∃ a i, p = Part.toolCall t a i := by
  cases p <;> simp [isToolCallNamed]

/-- `found_tools` contains a name iff it is watched and some `ToolCall` of
that name occurs in the part list. -/
theorem foundOf_mem (l : List Part) (t : String) :
    t ∈ foundOf l ↔
      t ∈ planning_tools ∧ ∃ p ∈ l, isToolCallNamed t p = true := by
  induction l with
  | nil => simp [foundOf, scanAll]
  | cons p l ih =>
    match p with
    | .userPrompt c =>
      have hb : foundOf (Part.userPrompt c :: l) = foundOf l := rfl
      rw [hb, ih]
      simp [isToolCallNamed]
    | .text c =>
      have hb : foundOf (Part.text c :: l) = foundOf l := rfl
      rw [hb, ih]
      simp [isToolCallNamed]
    | .unknown c =>
      have hb : foundOf (Part.unknown c :: l) = foundOf l := rfl
      rw [hb, ih]
      simp [isToolCallNamed]
    | .toolReturn n c i =>
      have hb : foundOf (Part.toolReturn n c i :: l) = foundOf l := rfl
      rw [hb, ih]
      simp [isToolCallNamed]
    | .toolCall n a i =>
      by_cases hw : n ∈ planning_tools
      · have hwc : planning_tools.contains n = true := List.elem_iff.mpr hw
        by_cases hf : ((scanAll l).2.contains n && i != "") = true
        · have hb : foundOf (Part.toolCall n a i :: l) = foundOf l := by
            simp only [foundOf, scanAll_cons, scanStep, hwc, hf, if_true]
          have hfn : n ∈ foundOf l := by
            have := (Bool.and_eq_true _ _).mp hf
            exact List.elem_iff.mp this.1
          rw [hb]
          constructor
          · intro h
            rcases ih.mp h with ⟨hw', q, hq, hqn⟩
            exact ⟨hw', q, List.mem_cons_of_mem _ hq, hqn⟩
          · rintro ⟨hw', q, hq, hqn⟩
            rcases List.mem_cons.mp hq with rfl | hq'
            · rcases isToolCallNamed_iff.mp hqn with ⟨a', i', heq⟩
              cases heq
              exact hfn
            · exact ih.mpr ⟨hw', q, hq', hqn⟩
        · have hb : foundOf (Part.toolCall n a i :: l) = n :: foundOf l := by
            simp only [foundOf, scanAll_cons, scanStep, hwc, if_true]
            rw [if_neg]
            simpa using hf
          rw [hb]
          constructor
          · intro h
            rcases List.mem_cons.mp h with rfl | h'
            · exact ⟨hw, Part.toolCall t a i, List.mem_cons_self _ _, by
                simp [isToolCallNamed]⟩
            · rcases ih.mp h' with ⟨hw', q, hq, hqn⟩
              exact ⟨hw', q, List.mem_cons_of_mem _ hq, hqn⟩
          · rintro ⟨hw', q, hq, hqn⟩
            rcases List.mem_cons.mp hq with rfl | hq'
            · rcases isToolCallNamed_iff.mp hqn with ⟨a', i', heq⟩
              cases heq
              exact List.mem_cons_self _ _
            · exact List.mem_cons_of_mem _ (ih.mpr ⟨hw', q, hq', hqn⟩)
      · have hwc : planning_tools.contains n = false := by
          simpa using hw
        have hb : foundOf (Part.toolCall n a i :: l) = foundOf l := by
          simp only [foundOf, scanAll_cons, scanStep, hwc]
          simp
        rw [hb]
        constructor
        · intro h
          rcases ih.mp h with ⟨hw', q, hq, hqn⟩
          exact ⟨hw', q, List.mem_cons_of_mem _ hq, hqn⟩
        · rintro ⟨hw', q, hq, hqn⟩
          rcases List.mem_cons.mp hq with rfl | hq'
          · rcases isToolCallNamed_iff.mp hqn with ⟨a', i', heq⟩
            cases heq
            exact absurd hw' hw
          · exact ih.mpr ⟨hw', q, hq', hqn⟩

theorem superseded_cons {p : Part} {l : List Part} {x : String}
    (h : Superseded l x) : Superseded (p :: l) x := by
  obtain ⟨hne, t, a, l₁, l₂, hsplit, hw, hq⟩ := h
  exact ⟨hne, t, a, p :: l₁, l₂, by rw [hsplit]; rfl, hw, hq⟩

theorem superseded_head {n a i : String} {l : List Part}
    (hw : n ∈ planning_tools) (hne : i ≠ "")
    (hl : ∃ q ∈ l, isToolCallNamed n q = true) :
    Superseded (Part.toolCall n a i :: l) i :=
  ⟨hne, n, a, [], l, rfl, hw, hl⟩

theorem superseded_cons_elim {p : Part} {l : List Part} {x : String}
    (h : Superseded (p :: l) x) :
    Superseded l x ∨
      (x ≠ "" ∧ ∃ t a, p = Part.toolCall t a x ∧ t ∈ planning_tools ∧
        ∃ q ∈ l, isToolCallNamed t q = true) := by
  obtain ⟨hne, t, b, l₁, l₂, hsplit, hw, q, hq, hqn⟩ := h
  cases l₁ with
  | nil =>
    right
    simp only [List.nil_append] at hsplit
    injection hsplit with h1 h2
    subst h2
    exact ⟨hne, t, b, h1, hw, q, hq, hqn⟩
  | cons e l₁' =>
    left
    rw [List.cons_append] at hsplit
    injection hsplit with h1 h2
    exact ⟨hne, t, b, l₁', l₂, h2, hw, q, hq, hqn⟩

/-- Membership in the stale-id set is exactly supersession: the id sits on
a watched `ToolCall` that a later same-named `ToolCall` supersedes. -/
theorem mem_staleOf (l : List Part) (x : String) :
    x ∈ staleOf l ↔ Superseded l x := by
  induction l with
  | nil =>
    constructor
    · intro h
      simp [staleOf, scanAll] at h
    · rintro ⟨hne, t, a, l₁, l₂, hsplit, _⟩
      exact absurd hsplit (by simp)
  | cons p l ih =>
    match p with
    | .userPrompt c =>
      have hb : staleOf (Part.userPrompt c :: l) = staleOf l := rfl
      rw [hb, ih]
      constructor
      · exact superseded_cons
      · intro h
        rcases superseded_cons_elim h with h' | ⟨_, t, a, heq, _⟩
        · exact h'
        · simp at heq
    | .text c =>
      have hb : staleOf (Part.text c :: l) = staleOf l := rfl
      rw [hb, ih]
      constructor
      · exact superseded_cons
      · intro h
        rcases superseded_cons_elim h with h' | ⟨_, t, a, heq, _⟩
        · exact h'
        · simp at heq
    | .unknown c =>
      have hb : staleOf (Part.unknown c :: l) = staleOf l := rfl
      rw [hb, ih]
      constructor
      · exact superseded_cons
      · intro h
        rcases superseded_cons_elim h with h' | ⟨_, t, a, heq, _⟩
        · exact h'
        · simp at heq
    | .toolReturn n c i =>
      have hb : staleOf (Part.toolReturn n c i :: l) = staleOf l := rfl
      rw [hb, ih]
      constructor
      · exact superseded_cons
      · intro h
        rcases superseded_cons_elim h with h' | ⟨_, t, a, heq, _⟩
        · exact h'
        · simp at heq
    | .toolCall n b i =>
      by_cases hw : n ∈ planning_tools
      · by_cases hfn : n ∈ foundOf l
        · have hfn' : n ∈ (scanAll l).2 := hfn
          by_cases hi : i = ""
          · have hb : staleOf (Part.toolCall n b i :: l) = staleOf l := by
              simp [staleOf, scanAll_cons, scanStep, hw, hfn', hi]
            rw [hb, ih]
            constructor
            · exact superseded_cons
            · intro h
              rcases superseded_cons_elim h with h' | ⟨hne, t, a, heq, hw', hq⟩
              · exact h'
              · injection heq with e1 e2 e3
                subst hi
                subst e3
                exact absurd rfl hne
          · have hb : staleOf (Part.toolCall n b i :: l) = i :: staleOf l := by
              simp [staleOf, scanAll_cons, scanStep, hw, hfn', hi]
            rw [hb]
            constructor
            · intro h
              rcases List.mem_cons.mp h with rfl | h'
              · exact superseded_head hw hi ((foundOf_mem l n).mp hfn).2
              · exact superseded_cons (ih.mp h')
            · intro h
              rcases superseded_cons_elim h with h' | ⟨hne, t, a, heq, hw', hq⟩
              · exact List.mem_cons_of_mem _ (ih.mpr h')
              · injection heq with e1 e2 e3
                subst e3
                exact List.mem_cons_self _ _
        · have hfn' : n ∉ (scanAll l).2 := hfn
          have hb : staleOf (Part.toolCall n b i :: l) = staleOf l := by
            simp [staleOf, scanAll_cons, scanStep, hw, hfn']
          rw [hb, ih]
          constructor
          · exact superseded_cons
          · intro h
            rcases superseded_cons_elim h with h' | ⟨hne, t, a, heq, hw', hq⟩
            · exact h'
            · injection heq with e1 e2 e3
              subst e1
              exact absurd ((foundOf_mem l n).mpr ⟨hw', hq⟩) hfn
      · have hb : staleOf (Part.toolCall n b i :: l) = staleOf l := by
          simp [staleOf, scanAll_cons, scanStep, hw]
        rw [hb, ih]
        constructor
        · exact superseded_cons
        · intro h
          rcases superseded_cons_elim h with h' | ⟨hne, t, a, heq, hw', hq⟩
          · exact h'
          · injection heq with e1 e2 e3
            subst e1
            exact absurd hw' hw

/-- Stale ids are never the empty string. -/
theorem staleOf_ne_empty {l : List Part} {x : String} (h : x ∈ staleOf l) :
    x ≠ "" :=
  ((mem_staleOf l x).mp h).1

/-! ### Characterization of the rebuild phase -/

theorem rebuildHistory_eq (ids : List String) (h : List Message) :
    rebuildHistory ids h =
      h.filterMap (fun m => rebuildMessagePair ids (m, messageParts m)) := by
  unfold rebuildHistory EnumerateMessageWithParts
  rw [List.filterMap_map]
  rfl

theorem filter_eq_of_length {α : Type} {p : α → Bool} {l : List α}
    (h : (l.filter p).length = l.length) : l.filter p = l :=
  List.filter_eq_self.mpr (List.filter_length_eq_length.mp h)

theorem allParts_cons (m : Message) (h : List Message) :
    allParts (m :: h) = messageParts m ++ allParts h := by
  simp [allParts]

/-- The flattened parts of the rebuilt history are exactly the non-stale
parts of the input, in order. -/
theorem allParts_rebuildHistory (ids : List String) (h : List Message) :
    allParts (rebuildHistory ids h) =
      (allParts h).filter (fun p => !partStale ids p) := by
  rw [rebuildHistory_eq]
  induction h with
  | nil => rfl
  | cons m h ih =>
    by_cases h1 : ((messageParts m).filter (fun p => !partStale ids p)).isEmpty
    · have hr : rebuildMessagePair ids (m, messageParts m) = none := by
        simp only [rebuildMessagePair, h1, if_true]
      rw [List.filterMap_cons_none
        (f := fun m => rebuildMessagePair ids (m, messageParts m)) hr,
        allParts_cons, List.filter_append, ih]
      have : (messageParts m).filter (fun p => !partStale ids p) = [] :=
        List.isEmpty_iff.mp h1
      rw [this]
      rfl
    · by_cases h2 : ((messageParts m).filter (fun p => !partStale ids p)).length =
          (messageParts m).length
      · have hr : rebuildMessagePair ids (m, messageParts m) = some m := by
          simp only [rebuildMessagePair, h1, h2, if_true, if_false,
            Bool.false_eq_true]
        rw [List.filterMap_cons_some
          (f := fun m => rebuildMessagePair ids (m, messageParts m)) hr,
          allParts_cons, allParts_cons, List.filter_append, ih,
          filter_eq_of_length h2]
      · have hr : rebuildMessagePair ids (m, messageParts m) = some
            ⟨m.isRequest, m.timestamp,
              some ((messageParts m).filter (fun p => !partStale ids p))⟩ := by
          simp only [rebuildMessagePair, h1, h2, if_false, Bool.false_eq_true]
        rw [List.filterMap_cons_some
          (f := fun m => rebuildMessagePair ids (m, messageParts m)) hr,
          allParts_cons, allParts_cons, List.filter_append, ih]
        rfl

/-- Every message surviving the rebuild carries a `some`, non-empty part
list, all of whose parts are non-stale. -/
theorem mem_rebuildHistory {ids : List String} {h : List Message} {m : Message}
    (hm : m ∈ rebuildHistory ids h) :
    m.partsAttr = some (messageParts m) ∧ messageParts m ≠ [] ∧
      ∀ p ∈ messageParts m, partStale ids p = false := by
  rw [rebuildHistory_eq] at hm
  rcases List.mem_filterMap.mp hm with ⟨m₀, hm₀, hr⟩
  by_cases h1 : ((messageParts m₀).filter (fun p => !partStale ids p)).isEmpty
  · simp only [rebuildMessagePair, h1, if_true] at hr
    exact Option.noConfusion hr
  · by_cases h2 : ((messageParts m₀).filter (fun p => !partStale ids p)).length =
        (messageParts m₀).length
    · simp only [rebuildMessagePair, h1, h2, if_true, if_false,
        Bool.false_eq_true, Option.some.injEq] at hr
      obtain rfl := hr
      have hfe := filter_eq_of_length h2
      have hne : messageParts m₀ ≠ [] := by
        intro hcon
        rw [hcon] at h1
        exact h1 rfl
      refine ⟨?_, hne, ?_⟩
      · cases hp : m₀.partsAttr with
        | none =>
          exact absurd (by simp [messageParts, hp]) hne
        | some l =>
          simp [messageParts, hp]
      · intro p hp
        have := List.filter_eq_self.mp hfe p hp
        simpa using this
    · simp only [rebuildMessagePair, h1, h2, if_false, Bool.false_eq_true,
        Option.some.injEq] at hr
      obtain rfl := hr
      have hne : ((messageParts m₀).filter (fun p => !partStale ids p)) ≠ [] := by
        intro hcon
        rw [hcon] at h1
        exact h1 rfl
      refine ⟨rfl, hne, ?_⟩
      intro p hp
      have := List.of_mem_filter hp
      simpa using this

/-- Splitting a filtered list around one element lifts to a split of the
original list whose suffix filters to the given suffix. -/
theorem filter_split {α : Type} (f : α → Bool) :
    ∀ (L l₁ l₂ : List α) (c : α), L.filter f = l₁ ++ c :: l₂ →
      ∃ m₁ m₂, L = m₁ ++ c :: m₂ ∧ m₂.filter f = l₂ := by
  intro L
  induction L with
  | nil =>
    intro l₁ l₂ c hsplit
    simp at hsplit
  | cons a L ih =>
    intro l₁ l₂ c hsplit
    by_cases ha : f a
    · rw [List.filter_cons_of_pos ha] at hsplit
      cases l₁ with
      | nil =>
        simp only [List.nil_append] at hsplit
        injection hsplit with e1 e2
        subst e1
        exact ⟨[], L, rfl, e2⟩
      | cons b l₁' =>
        rw [List.cons_append] at hsplit
        injection hsplit with e1 e2
        subst e1
        rcases ih l₁' l₂ c e2 with ⟨m₁, m₂, hL, hm₂⟩
        exact ⟨a :: m₁, m₂, by rw [hL]; rfl, hm₂⟩
    · rw [List.filter_cons_of_neg ha] at hsplit
      rcases ih l₁ l₂ c hsplit with ⟨m₁, m₂, hL, hm₂⟩
      exact ⟨a :: m₁, m₂, by rw [hL]; rfl, hm₂⟩

/-- The second scan, run on the output of the processor, finds nothing
stale. -/
theorem plan_scan_processor (h : List Message) :
    plan_scan (plan_history_processor h) = [] := by
  rw [List.eq_nil_iff_forall_not_mem]
  intro x hx
  rw [plan_scan_eq, mem_staleOf] at hx
  obtain ⟨hne, t, a, l₁, l₂, hsplit, hw, q, hq, hqn⟩ := hx
  rw [show plan_history_processor h = rebuildHistory (plan_scan h) h from rfl,
    allParts_rebuildHistory] at hsplit
  have hc : Part.toolCall t a x ∈
      (allParts h).filter (fun p => !partStale (plan_scan h) p) := by
    rw [hsplit]
    exact List.mem_append_right _ (List.mem_cons_self _ _)
  have hkeep := List.of_mem_filter hc
  rcases filter_split _ _ _ _ _ hsplit with ⟨m₁, m₂, hL, hm₂⟩
  have hqm : q ∈ m₂ := by
    rw [← hm₂] at hq
    exact List.mem_of_mem_filter hq
  have hsup : Superseded (allParts h) x :=
    ⟨hne, t, a, m₁, m₂, hL, hw, q, hqm, hqn⟩
  rw [← mem_staleOf, ← plan_scan_eq] at hsup
  have hps : partStale (plan_scan h) (Part.toolCall t a x) = true := by
    show (plan_scan h).contains x = true
    exact List.elem_iff.mpr hsup
  rw [hps] at hkeep
  exact absurd hkeep (by simp)

theorem filterMap_eq_self {α : Type} {g : α → Option α} {l : List α}
    (hg : ∀ a ∈ l, g a = some a) : l.filterMap g = l := by
  induction l with
  | nil => rfl
  | cons a l ih =>
    rw [List.filterMap_cons_some (hg a (List.mem_cons_self _ _)),
      ih fun b hb => hg b (List.mem_cons_of_mem _ hb)]

theorem partStale_nil (p : Part) : partStale [] p = false := by
  cases p <;> rfl

theorem partsAttr_eq_some {m : Message} (h : messageParts m ≠ []) :
    m.partsAttr = some (messageParts m) := by
  cases hp : m.partsAttr with
  | none => exact absurd (by simp [messageParts, hp]) h
  | some l => simp [messageParts, hp]

/-- Claim C2: applying the compaction pass to its own output yields an
identical result — `plan_history_processor` is idempotent, with no further
removals on the second pass. -/
theorem claim_C2 (history : List Message) :
    plan_history_processor (plan_history_processor history) =
      plan_history_processor history := by
  have h0 := plan_scan_processor history
  rw [show plan_history_processor (plan_history_processor history) =
    rebuildHistory (plan_scan (plan_history_processor history))
      (plan_history_processor history) from rfl, h0, rebuildHistory_eq]
  apply filterMap_eq_self
  intro m hm
  obtain ⟨hattr, hne, hkeep⟩ :=
    mem_rebuildHistory (hm : m ∈ rebuildHistory (plan_scan history) history)
  have hflt : (messageParts m).filter (fun p => !partStale [] p) =
      messageParts m := by
    apply List.filter_eq_self.mpr
    intro p hp
    simp [partStale_nil]
  have hie : ((messageParts m).filter (fun p => !partStale [] p)).isEmpty =
      false := by
    rw [hflt]
    simpa [List.isEmpty_iff] using hne
  simp only [rebuildMessagePair, hie, hflt, if_true, if_false,
    Bool.false_eq_true, if_pos rfl]
  simp [List.isEmpty_iff, hne]

/-- Claim C10: a message whose part sequence is empty in the input
(including one without a `parts` attribute) never survives
`plan_history_processor`, and on a history containing such a message the
processor is not the identity. -/
theorem claim_C10 (history : List Message) :
    (∀ m ∈ history, messageParts m = [] → m ∉ plan_history_processor history) ∧
    (∀ m ∈ plan_history_processor history, messageParts m ≠ []) ∧
    ((∃ m ∈ history, messageParts m = []) →
      plan_history_processor history ≠ history) := by
  have key : ∀ m ∈ plan_history_processor history, messageParts m ≠ [] := by
    intro m hm
    exact (mem_rebuildHistory hm).2.1
  refine ⟨?_, key, ?_⟩
  · intro m _ hempty hmem
    exact key m hmem hempty
  · rintro ⟨m, hm, hempty⟩ heq
    exact key m (by rw [heq]; exact hm) hempty

theorem claim_C10_witness :
    plan_history_processor [(⟨true, 0, none⟩ : Message)] ≠
      [(⟨true, 0, none⟩ : Message)] :=
  (claim_C10 [⟨true, 0, none⟩]).2.2 ⟨⟨true, 0, none⟩, by decide, rfl⟩

/-- Claim C6: a `ToolCall`/`ToolReturn` part whose call id is empty is never
marked stale and never filtered out by `plan_history_processor`. -/
theorem claim_C6 (history : List Message) :
    "" ∉ plan_scan history ∧
    ∀ p ∈ allParts history, isToolCallOrReturn p = true → callId p = "" →
      p ∈ allParts (plan_history_processor history) := by
  have hs : "" ∉ plan_scan history := by
    rw [plan_scan_eq]
    intro h
    exact staleOf_ne_empty h rfl
  refine ⟨hs, ?_⟩
  intro p hp hcr hid
  rw [show plan_history_processor history =
    rebuildHistory (plan_scan history) history from rfl, allParts_rebuildHistory]
  apply List.mem_filter.mpr
  refine ⟨hp, ?_⟩
  have hcontains : (plan_scan history).contains "" = false := by
    apply Bool.eq_false_iff.mpr
    intro hc
    exact hs (List.elem_iff.mp hc)
  have hfalse : partStale (plan_scan history) p = false := by
    cases p with
    | toolCall n a i =>
      have hi : i = "" := hid
      subst hi
      exact hcontains
    | toolReturn n c i =>
      have hi : i = "" := hid
      subst hi
      exact hcontains
    | userPrompt c => rfl
    | text c => rfl
    | unknown c => rfl
  simp [hfalse]

theorem claim_C6_witness :
    "" ∉ plan_scan
        [⟨false, 0, some [.toolCall "plan_create" "x" ""]⟩,
         ⟨false, 1, some [.toolCall "plan_create" "y" "2"]⟩] ∧
    Part.toolCall "plan_create" "x" "" ∈
      allParts (plan_history_processor
        [⟨false, 0, some [.toolCall "plan_create" "x" ""]⟩,
         ⟨false, 1, some [.toolCall "plan_create" "y" "2"]⟩]) :=
  ⟨(claim_C6 _).1,
    (claim_C6 _).2 (Part.toolCall "plan_create" "x" "") (by decide) rfl rfl⟩

/-- The rebuild loop, for any stale-id set, is exactly map-then-drop-empty
over the input messages. -/
theorem rebuildHistory_map_filter (ids : List String) (h : List Message) :
    rebuildHistory ids h =
      (h.map (msgFilter ids)).filter (fun m => !(messageParts m).isEmpty) := by
  rw [rebuildHistory_eq]
  induction h with
  | nil => rfl
  | cons m h ih =>
    rw [List.map_cons]
    by_cases h1 : ((messageParts m).filter (fun p => !partStale ids p)).isEmpty
    · have hr : rebuildMessagePair ids (m, messageParts m) = none := by
        simp only [rebuildMessagePair, h1, if_true]
      rw [List.filterMap_cons_none
        (f := fun m => rebuildMessagePair ids (m, messageParts m)) hr,
        ih, List.filter_cons]
      have : (messageParts (msgFilter ids m)).isEmpty = true := by
        simpa [msgFilter, messageParts] using h1
      rw [this]
      rfl
    · by_cases h2 : ((messageParts m).filter (fun p => !partStale ids p)).length =
          (messageParts m).length
      · have hr : rebuildMessagePair ids (m, messageParts m) = some m := by
          simp only [rebuildMessagePair, h1, h2, if_true, if_false,
            Bool.false_eq_true]
        rw [List.filterMap_cons_some
          (f := fun m => rebuildMessagePair ids (m, messageParts m)) hr,
          ih, List.filter_cons]
        have hie : (messageParts (msgFilter ids m)).isEmpty = false := by
          simpa [msgFilter, messageParts] using h1
        have hne : messageParts m ≠ [] := by
          intro hcon
          rw [hcon] at h1
          exact h1 rfl
        have hmm : msgFilter ids m = m := by
          have hfe := filter_eq_of_length h2
          have hattr := partsAttr_eq_some hne
          show (⟨m.isRequest, m.timestamp,
            some ((messageParts m).filter (fun p => !partStale ids p))⟩ : Message) = m
          rw [hfe, ← hattr]
        simp [hie, hmm, hne]
      · have hr : rebuildMessagePair ids (m, messageParts m) =
            some (msgFilter ids m) := by
          simp only [rebuildMessagePair, h1, h2, if_false, Bool.false_eq_true]
          rfl
        rw [List.filterMap_cons_some
          (f := fun m => rebuildMessagePair ids (m, messageParts m)) hr,
          ih, List.filter_cons]
        have hie : (messageParts (msgFilter ids m)).isEmpty = false := by
          simpa [msgFilter, messageParts] using h1
        simp [hie]

/-- Claim C4: the output of `plan_history_processor` is exactly the
part-filtered input messages with the emptied ones dropped — hence an
order-preserving subsequence of the part-filtered input, with no reordering
or merging, and within each message the retained parts keep their order. -/
theorem claim_C4 (history : List Message) :
    plan_history_processor history =
      (history.map (msgFilter (plan_scan history))).filter
        (fun m => !(messageParts m).isEmpty) ∧
    (plan_history_processor history).Sublist
      (history.map (msgFilter (plan_scan history))) ∧
    ∀ m : Message,
      (messageParts (msgFilter (plan_scan history) m)).Sublist (messageParts m) := by
  have main : plan_history_processor history =
      (history.map (msgFilter (plan_scan history))).filter
        (fun m => !(messageParts m).isEmpty) :=
    rebuildHistory_map_filter (plan_scan history) history
  refine ⟨main, ?_, ?_⟩
  · rw [main]
    exact List.filter_sublist _
  · intro m
    have : messageParts (msgFilter (plan_scan history) m) =
        (messageParts m).filter (fun p => !partStale (plan_scan history) p) := rfl
    rw [this]
    exact List.filter_sublist _

/-- Claim C5: `plan_history_processor` applies the three-way policy to each
message: drop when the stale-filtered part sequence is empty, reuse the
original message when nothing was filtered, otherwise rebuild with only the
filtered parts and all other fields unchanged. -/
theorem claim_C5 (history : List Message) :
    plan_history_processor history =
      history.filterMap (rebuildPolicy (plan_scan history)) := by
  rw [show plan_history_processor history =
    rebuildHistory (plan_scan history) history from rfl, rebuildHistory_eq]
  apply List.filterMap_congr
  intro m _
  by_cases hk : (messageParts m).filter
      (fun p => !partStale (plan_scan history) p) = []
  · simp [rebuildMessagePair, rebuildPolicy, hk]
  · have h1 : ((messageParts m).filter
        (fun p => !partStale (plan_scan history) p)).isEmpty = false := by
      simpa [List.isEmpty_iff] using hk
    by_cases hke : (messageParts m).filter
        (fun p => !partStale (plan_scan history) p) = messageParts m
    · have h2 : ((messageParts m).filter
          (fun p => !partStale (plan_scan history) p)).length =
          (messageParts m).length := by
        rw [hke]
      have hne : messageParts m ≠ [] := fun hcon => hk (hke.trans hcon)
      simp only [rebuildMessagePair, rebuildPolicy, h1, hk, hke, h2, if_true,
        if_false, Bool.false_eq_true]
      simp [List.isEmpty_iff, hne]
    · have h2 : ¬((messageParts m).filter
          (fun p => !partStale (plan_scan history) p)).length =
          (messageParts m).length :=
        fun h => hke (filter_eq_of_length h)
      simp only [rebuildMessagePair, rebuildPolicy, h1, hk, hke, h2, if_true,
        if_false, Bool.false_eq_true]

/-! ### The surviving call of a watched name is the chronologically last -/

theorem find?_split {α : Type} {f : α → Bool} :
    ∀ {l : List α} {q : α}, l.find? f = some q →
      ∃ l₁ l₂, l = l₁ ++ q :: l₂ ∧ ∀ x ∈ l₁, f x = false := by
  intro l
  induction l with
  | nil =>
    intro q h
    exact Option.noConfusion h
  | cons a l ih =>
    intro q h
    by_cases ha : f a
    · rw [List.find?_cons_of_pos _ ha] at h
      injection h with h'
      subst h'
      exact ⟨[], l, rfl, by simp⟩
    · rw [List.find?_cons_of_neg _ ha] at h
      rcases ih h with ⟨l₁, l₂, hsplit, hfalse⟩
      refine ⟨a :: l₁, l₂, by rw [hsplit]; rfl, ?_⟩
      intro x hx
      rcases List.mem_cons.mp hx with rfl | hx'
      · simpa using ha
      · exact hfalse x hx'

/-- Splitting the chronological part list at the last call of a name. -/
theorem lastCall_split {history : List Message} {t : String} {p : Part}
    (h : lastCallOfName history t = some p) :
    isToolCallNamed t p = true ∧ ∃ L₁ L₂, allParts history = L₁ ++ p :: L₂ ∧
      ∀ x ∈ L₂, isToolCallNamed t x = false := by
  have hp := List.find?_some h
  rcases find?_split h with ⟨r₁, r₂, hrev, hr₁⟩
  have hfor : allParts history = r₂.reverse ++ p :: r₁.reverse := by
    have := congrArg List.reverse hrev
    simpa [List.reverse_append] using this
  exact ⟨hp, r₂.reverse, r₁.reverse, hfor,
    fun x hx => hr₁ x (List.mem_reverse.mp hx)⟩

theorem lastCall_exists {history : List Message} {t : String} {p : Part}
    (hp : p ∈ allParts history) (hn : isToolCallNamed t p = true) :
    ∃ q, lastCallOfName history t = some q := by
  cases hfind : (allParts history).reverse.find? (isToolCallNamed t) with
  | none =>
    have := List.find?_eq_none.mp hfind p (List.mem_reverse.mpr hp)
    exact absurd hn (by simpa using this)
  | some q => exact ⟨q, hfind⟩

/-- Any `ToolCall` of a watched name with non-empty id that survives the
processor is the chronologically last call of that name in the input. -/
theorem survivor_is_last {history : List Message} {t : String} {p : Part}
    (hw : t ∈ planning_tools)
    (hp : p ∈ allParts (plan_history_processor history))
    (hn : isToolCallNamed t p = true) (hid : callId p ≠ "") :
    lastCallOfName history t = some p := by
  rw [show plan_history_processor history =
    rebuildHistory (plan_scan history) history from rfl,
    allParts_rebuildHistory] at hp
  have hmem : p ∈ allParts history := List.mem_of_mem_filter hp
  have hkeep : (!partStale (plan_scan history) p) = true :=
    (List.mem_filter.mp hp).2
  rcases lastCall_exists hmem hn with ⟨q, hq⟩
  rcases lastCall_split hq with ⟨hqn, L₁, L₂, hsplit, hL₂⟩
  have hploc : p ∈ L₁ ∨ p = q ∨ p ∈ L₂ := by
    rw [hsplit] at hmem
    rcases List.mem_append.mp hmem with h | h
    · exact Or.inl h
    · rcases List.mem_cons.mp h with h | h
      · exact Or.inr (Or.inl h)
      · exact Or.inr (Or.inr h)
  rcases hploc with hp₁ | rfl | hp₂
  · exfalso
    rcases List.append_of_mem hp₁ with ⟨A, B, hAB⟩
    rcases isToolCallNamed_iff.mp hn with ⟨a, i, rfl⟩
    have hsplit' : allParts history = A ++ Part.toolCall t a i :: (B ++ q :: L₂) := by
      rw [hsplit, hAB]
      simp
    have hsup : Superseded (allParts history) i :=
      ⟨hid, t, a, A, B ++ q :: L₂, hsplit', hw, q,
        List.mem_append_right _ (List.mem_cons_self _ _), hqn⟩
    rw [← mem_staleOf, ← plan_scan_eq] at hsup
    have hps : partStale (plan_scan history) (Part.toolCall t a i) = true := by
      show (plan_scan history).contains i = true
      exact List.elem_iff.mpr hsup
    rw [hps] at hkeep
    exact absurd hkeep (by simp)
  · exact hq
  · exact absurd (hL₂ p hp₂) (by simp [hn])

/-- In any chronological part list, at most one watched call of a given
name carries a non-empty id the scan leaves alive. -/
theorem countP_live_le_one (t : String) (hw : t ∈ planning_tools)
    (l : List Part) :
    l.countP (fun p => isToolCallNamed t p && (callId p != "") &&
      !((staleOf l).contains (callId p))) ≤ 1 := by
  induction l with
  | nil => simp
  | cons p l ih =>
    rw [List.countP_cons]
    have hgrow : ∀ x, x ∈ staleOf l → x ∈ staleOf (p :: l) := by
      intro x hx
      rw [mem_staleOf] at hx ⊢
      exact superseded_cons hx
    have hmono : l.countP (fun q => isToolCallNamed t q && (callId q != "") &&
        !((staleOf (p :: l)).contains (callId q))) ≤
        l.countP (fun q => isToolCallNamed t q && (callId q != "") &&
        !((staleOf l).contains (callId q))) := by
      apply List.countP_mono_left
      intro q hq hcond
      rcases (Bool.and_eq_true _ _).mp hcond with ⟨h12, h3⟩
      have hc : (staleOf l).contains (callId q) = false := by
        apply Bool.eq_false_iff.mpr
        intro hc
        have hmem := hgrow _ (List.elem_iff.mp hc)
        have hcp : (staleOf (p :: l)).contains (callId q) = true :=
          List.elem_iff.mpr hmem
        rw [hcp] at h3
        exact absurd h3 (by simp)
      rw [Bool.and_eq_true, h12, hc]
      simp
    by_cases hpt : isToolCallNamed t p = true ∧ callId p ≠ ""
    · obtain ⟨hpn, hpi⟩ := hpt
      rcases isToolCallNamed_iff.mp hpn with ⟨a, i, rfl⟩
      have hpi' : i ≠ "" := hpi
      by_cases hfn : t ∈ foundOf l
      · have hfn' : t ∈ (scanAll l).2 := hfn
        have hb : staleOf (Part.toolCall t a i :: l) = i :: staleOf l := by
          simp [staleOf, scanAll_cons, scanStep, hw, hfn', hpi']
        have hhead : (isToolCallNamed t (Part.toolCall t a i) &&
            (callId (Part.toolCall t a i) != "") &&
            !((staleOf (Part.toolCall t a i :: l)).contains
              (callId (Part.toolCall t a i)))) = false := by
          rw [hb]
          simp [callId]
        rw [hhead]
        simpa using le_trans hmono ih
      · have hz : l.countP (fun q => isToolCallNamed t q && (callId q != "") &&
            !((staleOf (Part.toolCall t a i :: l)).contains (callId q))) = 0 := by
          apply List.countP_eq_zero.mpr
          intro q hq hcond
          rcases (Bool.and_eq_true _ _).mp hcond with ⟨h12, _⟩
          rcases (Bool.and_eq_true _ _).mp h12 with ⟨hqn, _⟩
          exact hfn ((foundOf_mem l t).mpr ⟨hw, q, hq, hqn⟩)
        rw [hz]
        split
        · simp
        · simp
    · have hhead : (isToolCallNamed t p && (callId p != "") &&
          !((staleOf (p :: l)).contains (callId p))) = false := by
        rcases not_and_or.mp hpt with h | h
        · have hf : isToolCallNamed t p = false := Bool.eq_false_iff.mpr h
          simp [hf]
        · have hf : callId p = "" := not_ne_iff.mp h
          simp [hf]
      rw [hhead]
      simpa using le_trans hmono ih

theorem isToolReturnPart_iff {p : Part} :
    isToolReturnPart p = true ↔ ∃ n c i, p = Part.toolReturn n c i := by
  cases p <;> simp [isToolReturnPart]

/-- Claim C3: after compaction, for every watched tool name the history has
at most one `ToolCall` of that name with a non-empty id; any such survivor
is the chronologically last call of that name from the input, and every
`ToolReturn` sharing its call id present in the input is retained. -/
theorem claim_C3 (history : List Message) (t : String)
    (hw : t ∈ planning_tools) :
    (allParts (plan_history_processor history)).countP
        (fun p => isToolCallNamed t p && (callId p != "")) ≤ 1 ∧
    ∀ p ∈ allParts (plan_history_processor history),
      isToolCallNamed t p = true → callId p ≠ "" →
        lastCallOfName history t = some p ∧
        ∀ r ∈ allParts history, isToolReturnPart r = true →
          callId r = callId p →
          r ∈ allParts (plan_history_processor history) := by
  have hout : allParts (plan_history_processor history) =
      (allParts history).filter (fun p => !partStale (plan_scan history) p) :=
    allParts_rebuildHistory _ _
  constructor
  · rw [hout, List.countP_filter]
    refine le_trans ?_ (countP_live_le_one t hw (allParts history))
    apply List.countP_mono_left
    intro q hq hcond
    rcases (Bool.and_eq_true _ _).mp hcond with ⟨hlive, hkeep⟩
    rcases (Bool.and_eq_true _ _).mp hlive with ⟨hqn, hqi⟩
    rcases isToolCallNamed_iff.mp hqn with ⟨a, i, rfl⟩
    rw [Bool.and_eq_true, Bool.and_eq_true]
    refine ⟨⟨hqn, hqi⟩, ?_⟩
    rw [← plan_scan_eq]
    exact hkeep
  · intro p hp hn hid
    refine ⟨survivor_is_last hw hp hn hid, ?_⟩
    intro r hr hrret hrid
    have hpk : (!partStale (plan_scan history) p) = true := by
      rw [hout] at hp
      exact (List.mem_filter.mp hp).2
    rw [hout]
    apply List.mem_filter.mpr
    refine ⟨hr, ?_⟩
    rcases isToolCallNamed_iff.mp hn with ⟨a, i, rfl⟩
    rcases isToolReturnPart_iff.mp hrret with ⟨n, c, j, rfl⟩
    have hji : j = i := hrid
    rw [hji]
    exact hpk

theorem claim_C3_witness :
    (allParts (plan_history_processor
        [⟨false, 0, some [.toolCall "plan_create" "x" "1",
            .toolReturn "plan_create" "ok1" "1"]⟩,
         ⟨false, 1, some [.toolCall "plan_create" "y" "2",
            .toolReturn "plan_create" "ok2" "2"]⟩])).countP
        (fun p => isToolCallNamed "plan_create" p && (callId p != "")) ≤ 1 ∧
    lastCallOfName
        [⟨false, 0, some [.toolCall "plan_create" "x" "1",
            .toolReturn "plan_create" "ok1" "1"]⟩,
         ⟨false, 1, some [.toolCall "plan_create" "y" "2",
            .toolReturn "plan_create" "ok2" "2"]⟩] "plan_create" =
      some (.toolCall "plan_create" "y" "2") ∧
    Part.toolReturn "plan_create" "ok2" "2" ∈
      allParts (plan_history_processor
        [⟨false, 0, some [.toolCall "plan_create" "x" "1",
            .toolReturn "plan_create" "ok1" "1"]⟩,
         ⟨false, 1, some [.toolCall "plan_create" "y" "2",
            .toolReturn "plan_create" "ok2" "2"]⟩]) := by
  have hc := claim_C3
    [⟨false, 0, some [.toolCall "plan_create" "x" "1",
        .toolReturn "plan_create" "ok1" "1"]⟩,
     ⟨false, 1, some [.toolCall "plan_create" "y" "2",
        .toolReturn "plan_create" "ok2" "2"]⟩] "plan_create" (by decide)
  have hmain := hc.2 (.toolCall "plan_create" "y" "2") (by decide) (by decide)
    (by decide)
  exact ⟨hc.1, hmain.1, hmain.2 (.toolReturn "plan_create" "ok2" "2")
    (by decide) (by decide) (by decide)⟩

theorem split_unique {α : Type} :
    ∀ {l₁ L₁ l₂ L₂ : List α} {c : α},
      l₁ ++ c :: l₂ = L₁ ++ c :: L₂ → c ∉ l₁ → c ∉ l₂ → l₁ = L₁ ∧ l₂ = L₂ := by
  intro l₁
  induction l₁ with
  | nil =>
    intro L₁ l₂ L₂ c h h₁ h₂
    cases L₁ with
    | nil =>
      rw [List.nil_append, List.nil_append] at h
      injection h with e1 e2
      exact ⟨rfl, e2⟩
    | cons b L₁' =>
      rw [List.nil_append, List.cons_append] at h
      injection h with e1 e2
      subst e1
      exfalso
      apply h₂
      rw [e2]
      exact List.mem_append_right _ (List.mem_cons_self _ _)
  | cons a l₁' ih =>
    intro L₁ l₂ L₂ c h h₁ h₂
    cases L₁ with
    | nil =>
      rw [List.cons_append, List.nil_append] at h
      injection h with e1 e2
      subst e1
      exact absurd (List.mem_cons_self _ _) h₁
    | cons b L₁' =>
      rw [List.cons_append, List.cons_append] at h
      injection h with e1 e2
      subst e1
      have h₁' : c ∉ l₁' := fun hc => h₁ (List.mem_cons_of_mem _ hc)
      rcases ih e2 h₁' h₂ with ⟨hA, hB⟩
      exact ⟨by rw [hA], hB⟩

/-- Claim C1 (amended): provided every non-empty call id appears on at most
one `ToolCall` part of the history, for every watched tool name with at
least one `ToolCall` in the input the chronologically last such call is
retained by `plan_history_processor`, and every earlier `ToolCall` of the
same name with a present (non-empty) call id is marked stale and removed,
regardless of its arguments. -/
theorem claim_C1 (history : List Message) (t : String) (p : Part)
    (hw : t ∈ planning_tools)
    (hnd : ((allParts history).filterMap toolCallIdOf).Nodup)
    (hlast : lastCallOfName history t = some p) :
    p ∈ allParts (plan_history_processor history) ∧
    ∀ q ∈ allParts history, isToolCallNamed t q = true → callId q ≠ "" →
      q ≠ p → q ∉ allParts (plan_history_processor history) := by
  have hout : allParts (plan_history_processor history) =
      (allParts history).filter (fun x => !partStale (plan_scan history) x) :=
    allParts_rebuildHistory _ _
  rcases lastCall_split hlast with ⟨hn, L₁, L₂, hsplit, hL₂⟩
  have hpmem : p ∈ allParts history := by
    rw [hsplit]
    exact List.mem_append_right _ (List.mem_cons_self _ _)
  rcases isToolCallNamed_iff.mp hn with ⟨a, i, rfl⟩
  constructor
  · rw [hout]
    apply List.mem_filter.mpr
    refine ⟨hpmem, ?_⟩
    by_cases hi : i = ""
    · subst hi
      have hfalse : (plan_scan history).contains "" = false := by
        apply Bool.eq_false_iff.mpr
        intro hc
        have hmem := List.elem_iff.mp hc
        rw [plan_scan_eq] at hmem
        exact staleOf_ne_empty hmem rfl
      show (!(plan_scan history).contains "") = true
      rw [hfalse]
      rfl
    · have hnotin : i ∉ plan_scan history := by
        intro hin
        rw [plan_scan_eq, mem_staleOf] at hin
        obtain ⟨hne, u, b, l₁, l₂, hsp, hwu, q', hq', hq'n⟩ := hin
        have hidc : toolCallIdOf (Part.toolCall u b i) = some i := by
          simp [toolCallIdOf, hi]
        have hidp : toolCallIdOf (Part.toolCall t a i) = some i := by
          simp [toolCallIdOf, hi]
        have hfm : (allParts history).filterMap toolCallIdOf =
            l₁.filterMap toolCallIdOf ++ i :: l₂.filterMap toolCallIdOf := by
          rw [hsp, List.filterMap_append,
            List.filterMap_cons_some (f := toolCallIdOf) hidc]
        rw [hfm] at hnd
        have hnod := List.nodup_append.mp hnd
        have hiA : i ∉ l₁.filterMap toolCallIdOf := by
          intro hin'
          exact (hnod.2.2 hin') (List.mem_cons_self _ _)
        have hiB : i ∉ l₂.filterMap toolCallIdOf :=
          (List.nodup_cons.mp hnod.2.1).1
        have hpm := hpmem
        rw [hsp] at hpm
        rcases List.mem_append.mp hpm with hA | hBC
        · exact hiA (List.mem_filterMap.mpr ⟨_, hA, hidp⟩)
        rcases List.mem_cons.mp hBC with heqc | hB
        · injection heqc with e1 e2 e3
          subst e1
          subst e2
          have hpl₁ : Part.toolCall t a i ∉ l₁ := fun hc =>
            hiA (List.mem_filterMap.mpr ⟨_, hc, hidc⟩)
          have hpl₂ : Part.toolCall t a i ∉ l₂ := fun hc =>
            hiB (List.mem_filterMap.mpr ⟨_, hc, hidc⟩)
          have heq2 : l₁ ++ Part.toolCall t a i :: l₂ =
              L₁ ++ Part.toolCall t a i :: L₂ := by
            rw [← hsp, ← hsplit]
          rcases split_unique heq2 hpl₁ hpl₂ with ⟨_, hBeq⟩
          rw [hBeq] at hq'
          rw [hL₂ q' hq'] at hq'n
          exact Bool.noConfusion hq'n
        · exact hiB (List.mem_filterMap.mpr ⟨_, hB, hidp⟩)
      show (!(plan_scan history).contains i) = true
      have hfalse : (plan_scan history).contains i = false := by
        apply Bool.eq_false_iff.mpr
        intro hc
        exact hnotin (List.elem_iff.mp hc)
      rw [hfalse]
      rfl
  · intro q hq hqn hqi hqp
    rcases isToolCallNamed_iff.mp hqn with ⟨aq, y, rfl⟩
    have hqL₁ : Part.toolCall t aq y ∈ L₁ := by
      rw [hsplit] at hq
      rcases List.mem_append.mp hq with h | h
      · exact h
      rcases List.mem_cons.mp h with h | h
      · exact absurd h hqp
      · rw [hL₂ _ h] at hqn
        exact Bool.noConfusion hqn
    rcases List.append_of_mem hqL₁ with ⟨A, B, hAB⟩
    have hsp2 : allParts history =
        A ++ Part.toolCall t aq y :: (B ++ Part.toolCall t a i :: L₂) := by
      rw [hsplit, hAB]
      simp
    have hsup : Superseded (allParts history) y :=
      ⟨hqi, t, aq, A, B ++ Part.toolCall t a i :: L₂, hsp2, hw,
        Part.toolCall t a i,
        List.mem_append_right _ (List.mem_cons_self _ _),
        by simp [isToolCallNamed]⟩
    rw [← mem_staleOf, ← plan_scan_eq] at hsup
    intro hqout
    rw [hout] at hqout
    have hkeep : (!partStale (plan_scan history) (Part.toolCall t aq y)) =
        true := (List.mem_filter.mp hqout).2
    have hps : partStale (plan_scan history) (Part.toolCall t aq y) = true := by
      show (plan_scan history).contains y = true
      exact List.elem_iff.mpr hsup
    rw [hps] at hkeep
    exact absurd hkeep (by simp)

/-- Claim C1 exactly as stated fails on a history in which two `ToolCall`s
of a watched name share one call id: the scan marks the shared id stale and
the rebuild removes both occurrences, so the chronologically last call is
not retained. -/
theorem claim_C1_counterexample :
    "plan_create" ∈ planning_tools ∧
    lastCallOfName
        [(⟨false, 0, some [.toolCall "plan_create" "" "a",
          .toolCall "plan_create" "" "a"]⟩ : Message)] "plan_create" =
      some (Part.toolCall "plan_create" "" "a") ∧
    Part.toolCall "plan_create" "" "a" ∉
      allParts (plan_history_processor
        [(⟨false, 0, some [.toolCall "plan_create" "" "a",
          .toolCall "plan_create" "" "a"]⟩ : Message)]) ∧
    plan_history_processor
        [(⟨false, 0, some [.toolCall "plan_create" "" "a",
          .toolCall "plan_create" "" "a"]⟩ : Message)] = [] := by
  decide

theorem claim_C1_witness :
    Part.toolCall "plan_create" "y" "2" ∈
      allParts (plan_history_processor
        [⟨false, 0, some [.toolCall "plan_create" "x" "1"]⟩,
         ⟨false, 1, some [.toolCall "plan_create" "y" "2"]⟩]) ∧
    Part.toolCall "plan_create" "x" "1" ∉
      allParts (plan_history_processor
        [⟨false, 0, some [.toolCall "plan_create" "x" "1"]⟩,
         ⟨false, 1, some [.toolCall "plan_create" "y" "2"]⟩]) := by
  have hc := claim_C1
    [⟨false, 0, some [.toolCall "plan_create" "x" "1"]⟩,
     ⟨false, 1, some [.toolCall "plan_create" "y" "2"]⟩]
    "plan_create" (Part.toolCall "plan_create" "y" "2")
    (by decide) (by decide) (by decide)
  exact ⟨hc.1, hc.2 (Part.toolCall "plan_create" "x" "1")
    (by decide) (by decide) (by decide) (by decide)⟩

/-! ### Plan state -/

theorem foldl_append_map {α β : Type} (f : α → β) :
    ∀ (l : List α) (acc : List β),
      l.foldl (fun acc a => acc ++ [f a]) acc = acc ++ l.map f := by
  intro l
  induction l with
  | nil => simp
  | cons a l ih =>
    intro acc
    rw [List.foldl_cons, ih, List.map_cons]
    simp

theorem render_eq_spec (p_ctx : PlanningContext) :
    p_ctx.render = renderSpec p_ctx := by
  unfold PlanningContext.render renderSpec
  by_cases h : p_ctx.steps = []
  · simp [h]
  · have hie : p_ctx.steps.isEmpty = false := by
      simpa [List.isEmpty_iff] using h
    rw [hie, if_neg h]
    simp only [Bool.false_eq_true, if_false]
    rw [foldl_append_map]
    rfl

/-- Claim C7: `plan_show_progress` performs no mutation and returns the
render of the plan state, which is exactly the specified string: the
literal `No plan created yet.` for an empty step list, otherwise the
`Current Plan:` header plus one formatted line per step, newline-joined
with no trailing newline. -/
theorem claim_C7 (p_ctx : PlanningContext) :
    plan_show_progress p_ctx = (p_ctx, renderSpec p_ctx) ∧
    PlanningContext.render { steps := [] } = "No plan created yet." := by
  constructor
  · unfold plan_show_progress
    rw [render_eq_spec]
  · rfl

theorem markFirstStep_not_found {steps : List PlanStep} {step_id : Int}
    (h : ∀ s ∈ steps, s.id ≠ step_id) :
    markFirstStep steps step_id = (steps, false) := by
  induction steps with
  | nil => rfl
  | cons s rest ih =>
    have hs : s.id ≠ step_id := h s (List.mem_cons_self _ _)
    rw [markFirstStep, if_neg hs, ih fun u hu => h u (List.mem_cons_of_mem _ hu)]

theorem markFirstStep_found {step_id : Int} :
    ∀ (l₁ : List PlanStep) (s : PlanStep) (l₂ : List PlanStep),
      s.id = step_id → (∀ u ∈ l₁, u.id ≠ step_id) →
      markFirstStep (l₁ ++ s :: l₂) step_id =
        (l₁ ++ { s with completed := true } :: l₂, true) := by
  intro l₁
  induction l₁ with
  | nil =>
    intro s l₂ hs _
    rw [List.nil_append, markFirstStep, if_pos hs, List.nil_append]
  | cons u l₁' ih =>
    intro s l₂ hs hnone
    have hu : u.id ≠ step_id := hnone u (List.mem_cons_self _ _)
    rw [List.cons_append, markFirstStep, if_neg hu,
      ih s l₂ hs fun v hv => hnone v (List.mem_cons_of_mem _ hv)]
    rfl

/-- Claim C8: `plan_mark_step_complete` with an absent step id returns the
literal `Step {id} not found.` through its return value with the step list
untouched; with a present id it completes the first step carrying the id
and returns the rendered plan. -/
theorem claim_C8 (p_ctx : PlanningContext) (step_id : Int) :
    ((∀ s ∈ p_ctx.steps, s.id ≠ step_id) →
      plan_mark_step_complete p_ctx step_id =
        (p_ctx, "Step " ++ toString step_id ++ " not found.")) ∧
    (∀ l₁ s l₂, p_ctx.steps = l₁ ++ s :: l₂ → s.id = step_id →
      (∀ u ∈ l₁, u.id ≠ step_id) →
      (plan_mark_step_complete p_ctx step_id).1 =
        { steps := l₁ ++ { s with completed := true } :: l₂ } ∧
      (plan_mark_step_complete p_ctx step_id).2 =
        (plan_mark_step_complete p_ctx step_id).1.render) := by
  constructor
  · intro hnone
    unfold plan_mark_step_complete
    rw [markFirstStep_not_found hnone]
    rfl
  · intro l₁ s l₂ hsplit hs hnone
    unfold plan_mark_step_complete
    rw [hsplit, markFirstStep_found l₁ s l₂ hs hnone]
    exact ⟨rfl, rfl⟩

theorem claim_C8_witness :
    plan_mark_step_complete ⟨[⟨1, "alpha", false⟩, ⟨2, "beta", false⟩]⟩ 99 =
      (⟨[⟨1, "alpha", false⟩, ⟨2, "beta", false⟩]⟩,
        "Step 99 not found.") ∧
    (plan_mark_step_complete ⟨[⟨1, "alpha", false⟩, ⟨2, "beta", false⟩]⟩ 2).1 =
      ⟨[⟨1, "alpha", false⟩, ⟨2, "beta", true⟩]⟩ ∧
    (plan_mark_step_complete ⟨[⟨1, "alpha", false⟩, ⟨2, "beta", false⟩]⟩ 2).2 =
      (plan_mark_step_complete
        ⟨[⟨1, "alpha", false⟩, ⟨2, "beta", false⟩]⟩ 2).1.render := by
  have h99 := (claim_C8 ⟨[⟨1, "alpha", false⟩, ⟨2, "beta", false⟩]⟩ 99).1
    (by decide)
  have h2 := (claim_C8 ⟨[⟨1, "alpha", false⟩, ⟨2, "beta", false⟩]⟩ 2).2
    [⟨1, "alpha", false⟩] ⟨2, "beta", false⟩ [] rfl (by decide) (by decide)
  refine ⟨?_, h2.1, h2.2⟩
  rw [h99]
  decide

/-- Claim C9: when the `_planning_context` attribute holds a value that is
not a `PlanningContext`, each of the three plan tools fails with the
propagated type-mismatch error; when the attribute is absent, a fresh empty
`PlanningContext` is lazily created and attached instead of failing. -/
theorem claim_C9 (target : Target) (v : String) (steps : List String)
    (step_id : Int) :
    (target.planning_context_attr = some (.other v) →
      plan_create_tool target steps =
        .error "Planning context is not an instance of PlanningContext" ∧
      plan_mark_step_complete_tool target step_id =
        .error "Planning context is not an instance of PlanningContext" ∧
      plan_show_progress_tool target =
        .error "Planning context is not an instance of PlanningContext") ∧
    (target.planning_context_attr = none →
      _get_context target =
        .ok ({ planning_context_attr := some (.planning { steps := [] }) },
          { steps := [] })) := by
  constructor
  · intro hother
    have hget : _get_context target =
        .error "Planning context is not an instance of PlanningContext" := by
      obtain ⟨attr⟩ := target
      have hattr : attr = some (.other v) := hother
      subst hattr
      rfl
    refine ⟨?_, ?_, ?_⟩
    · unfold plan_create_tool
      rw [hget]
    · unfold plan_mark_step_complete_tool
      rw [hget]
    · unfold plan_show_progress_tool
      rw [hget]
  · intro hnone
    unfold _get_context
    rw [hnone]
    rfl

theorem claim_C9_witness :
    plan_create_tool ⟨some (.other "garbage")⟩ ["s1"] =
      .error "Planning context is not an instance of PlanningContext" ∧
    plan_mark_step_complete_tool ⟨some (.other "garbage")⟩ 1 =
      .error "Planning context is not an instance of PlanningContext" ∧
    plan_show_progress_tool ⟨some (.other "garbage")⟩ =
      .error "Planning context is not an instance of PlanningContext" ∧
    _get_context ⟨none⟩ =
      .ok (⟨some (.planning ⟨[]⟩)⟩, ⟨[]⟩) := by
  have h := claim_C9 ⟨some (.other "garbage")⟩ "garbage" ["s1"] 1
  have h2 := (claim_C9 ⟨none⟩ "garbage" ["s1"] 1).2 rfl
  exact ⟨(h.1 rfl).1, (h.1 rfl).2.1, (h.1 rfl).2.2, h2⟩

/-- Sanity check: an earlier `plan_create` call/return pair is removed and
the later pair is kept, with the user prompt untouched. -/
theorem superseded_pair_removed :
    plan_history_processor
      [⟨true, 0, some [.userPrompt "hi"]⟩,
       ⟨false, 1, some [.toolCall "plan_create" "a" "1"]⟩,
       ⟨true, 2, some [.toolReturn "plan_create" "ok" "1"]⟩,
       ⟨false, 3, some [.toolCall "plan_create" "b" "2"]⟩,
       ⟨true, 4, some [.toolReturn "plan_create" "ok" "2"]⟩] =
      [⟨true, 0, some [.userPrompt "hi"]⟩,
       ⟨false, 3, some [.toolCall "plan_create" "b" "2"]⟩,
       ⟨true, 4, some [.toolReturn "plan_create" "ok" "2"]⟩] := by
  decide

/-- Sanity check: partial removal keeps the `Text` part of a mixed message
while dropping its stale co-located `ToolCall`. -/
theorem partial_removal_keeps_text :
    plan_history_processor
      [⟨false, 0, some [.text "t", .toolCall "plan_show_progress" "" "1"]⟩,
       ⟨false, 1, some [.toolCall "plan_show_progress" "" "2"]⟩] =
      [⟨false, 0, some [.text "t"]⟩,
       ⟨false, 1, some [.toolCall "plan_show_progress" "" "2"]⟩] := by
  decide

end Planning
